import Mathlib

set_option maxHeartbeats 1000000

/-
Verification of the core pipeline of `readport.py` (tower_parse).

The data model and the operations below are shallow embeddings of the Python
source.  Python dicts are modelled as association lists (first occurrence of a
key wins, exactly like dict lookup; dict keys are unique in every dict the
program builds, which the theorems carry as `Nodup` hypotheses where needed).
External library calls — the regex engine (`re.match(...).groupdict()`), the
numeric conversions `int()` / `float()` / `bytes.decode()`, and the filesystem
operations of the flush path (`mkdir` / `np.savez_compressed` / `rename`) —
are oracles supplied as function parameters; everything the repository itself
computes is translated directly.
-/

namespace Readport

/-- Variable names (Python `str`) modelled as lists of characters. -/
abbrev Name := List Char

/-- Binary payloads (Python `bytes`) modelled as lists of byte values. -/
abbrev ByteStr := List Nat

/-- A value produced by converting a captured byte string: `int(...)`,
`float(...)` or `bytes.decode()` results.  Floats are represented by rationals;
no arithmetic is ever performed on them by the program. -/
inductive Value where
  | vInt : Int → Value
  | vFloat : ℚ → Value
  | vStr : List Char → Value
deriving DecidableEq, Inhabited

/-- The reserved field name `"time"` (`readport.py` lines 266, 287, 365). -/
def timeKey : Name := ['t', 'i', 'm', 'e']

/-- The `Item` namedtuple `(data, timestamp, fresh_connection)`
(`readport.py` line 37). -/
structure Item where
  data : ByteStr
  timestamp : ℚ
  fresh_connection : Bool
deriving DecidableEq

/-- Python `dict.get`: the value at the first (unique) occurrence of a key. -/
def alistGet {κ α : Type} [DecidableEq κ] : List (κ × α) → κ → Option α
  | [], _ => none
  | p :: r, k => if p.1 = k then some p.2 else alistGet r k

/-- Python `dict.__setitem__`: replace the entry of an existing key in place,
otherwise append a new entry at the end (dicts preserve insertion order). -/
def alistSet {κ α : Type} [DecidableEq κ] : List (κ × α) → κ → α → List (κ × α)
  | [], k, v => [(k, v)]
  | p :: r, k, v => if p.1 = k then (k, v) :: r else p :: alistSet r k v

/-- Python `dict.keys()` in insertion order. -/
def keysOf {κ α : Type} (l : List (κ × α)) : List κ := l.map Prod.fst

theorem keysOf_nil {κ α : Type} : keysOf ([] : List (κ × α)) = [] := rfl

theorem keysOf_cons {κ α : Type} (p : κ × α) (l : List (κ × α)) :
    keysOf (p :: l) = p.1 :: keysOf l := rfl

theorem keysOf_append {κ α : Type} (l l2 : List (κ × α)) :
    keysOf (l ++ l2) = keysOf l ++ keysOf l2 := by
  simp [keysOf]

/-- Occurrence count of a key in a key list. -/
def countKey {κ : Type} [DecidableEq κ] : List κ → κ → Nat
  | [], _ => 0
  | x :: r, k => countKey r k + (if x = k then 1 else 0)

theorem countKey_eq_zero {κ : Type} [DecidableEq κ] {l : List κ} {k : κ}
    (h : k ∉ l) : countKey l k = 0 := by
  induction l with
  | nil => rfl
  | cons x r ih =>
    rw [List.mem_cons, not_or] at h
    rw [countKey, ih h.2, if_neg (fun hx => h.1 hx.symm)]

/-- Python `extracted.keys() == buf.keys()`: dict key views compare as sets. -/
def keySetEqB (ks ls : List Name) : Bool :=
  (ks.all fun k => decide (k ∈ ls)) && (ls.all fun k => decide (k ∈ ks))

/-- An extracted record: a dict of variable/value pairs (output of `extract`). -/
abbrev Extracted := List (Name × Value)

/-- One group's in-memory bucket: the `defaultdict(list)` of per-variable
vectors (`readport.py` line 271). -/
abbrev Bucket := List (Name × List Value)

/-- `extracted.get(self.group_by)`: the group key of a record, `None` when no
grouping variable is configured or the variable is absent. -/
abbrev GroupKey := Option Value

/-- The state of `Buffer` (`readport.py` lines 236-245). -/
structure Buffer where
  pack_length : Nat
  group_by : Option Name
  buf : List (GroupKey × Bucket)
deriving DecidableEq

/-- `Buffer.__init__`: an empty buffer. -/
def Buffer.init (pl : Nat) (gb : Option Name) : Buffer := ⟨pl, gb, []⟩

/-- `extracted.get(self.group_by)` (`readport.py` line 256). -/
def getGroup (e : Extracted) (gb : Option Name) : GroupKey :=
  match gb with
  | none => none
  | some k => alistGet e k

/-- `self._buf.get(group_value)` (`readport.py` line 257). -/
def bucketAt (b : Buffer) (g : GroupKey) : Option Bucket := alistGet b.buf g

/-- `len(buf["time"])`, taken as `0` when the variable is absent. -/
def timeLen (bk : Bucket) : Nat := ((alistGet bk timeKey).getD []).length

/-- `buf[var].append(value)` on a `defaultdict(list)`: append to the existing
vector, creating an empty one first when the variable is new. -/
def bucketAppend (bk : Bucket) (k : Name) (v : Value) : Bucket :=
  match alistGet bk k with
  | some vs => alistSet bk k (vs ++ [v])
  | none => bk ++ [(k, [v])]

/-- The collection loop `for var, value in extracted.items(): buf[var].append(value)`
(`readport.py` lines 274-275). -/
def putItems (bk : Bucket) : Extracted → Bucket
  | [] => bk
  | p :: rest => putItems (bucketAppend bk p.1 p.2) rest

/-- The three `assert` conditions of `Buffer.put`, in source order. -/
inductive PutErr where
  | keysMismatch
  | timeMissing
  | bufferFull
deriving DecidableEq

/-- `Buffer.put` (`readport.py` lines 247-275).  `if buf:` is dict truthiness,
so an empty (cleared) bucket takes the first-record path and is replaced by a
fresh `defaultdict(list)`; a failed assertion raises before any mutation. -/
def Buffer.put (b : Buffer) (e : Extracted) : Except PutErr Buffer :=
  let g := getGroup e b.group_by
  match bucketAt b g with
  | some bk =>
    if bk.isEmpty then
      .ok { b with buf := alistSet b.buf g (putItems [] e) }
    else if keySetEqB (keysOf e) (keysOf bk) = false then .error .keysMismatch
    else if timeKey ∉ keysOf bk then .error .timeMissing
    else if b.pack_length ≤ timeLen bk then .error .bufferFull
    else .ok { b with buf := alistSet b.buf g (putItems bk e) }
  | none => .ok { b with buf := alistSet b.buf g (putItems [] e) }

/-- `Buffer.full` (`readport.py` lines 277-289): the groups whose (truthy,
hence non-empty) `"time"` vector has exactly `pack_length` entries.  The
Python generator is evaluated eagerly here; during `Parser.write` the only
mutation between yields clears a bucket that was already yielded, so the
eager list and the lazy generator coincide on every path the program takes. -/
def Buffer.full (b : Buffer) : List (GroupKey × Bucket) :=
  b.buf.filter fun p =>
    match alistGet p.2 timeKey with
    | some ts => !ts.isEmpty && decide (ts.length = b.pack_length)
    | none => false

/-- `Buffer.clear` (`readport.py` lines 291-297): `self._buf[group_value].clear()`
empties the group's `defaultdict` in place, keeping the key.  (The source would
raise `KeyError` on an unknown key; it is only ever called with keys yielded by
`full`, which exist, and on an unknown key this model leaves the buffer
unchanged.) -/
def Buffer.clear (b : Buffer) (g : GroupKey) : Buffer :=
  { b with buf := b.buf.map fun p => if p.1 = g then (p.1, ([] : Bucket)) else p }

/-- The declared conversion tags: the keys of `Group.types`
(`readport.py` line 169). -/
inductive DType where
  | int
  | float
  | str
deriving DecidableEq

/-- The spelling of each type tag in the configuration. -/
def tagName : DType → Name
  | .int => ['i', 'n', 't']
  | .float => ['f', 'l', 'o', 'a', 't']
  | .str => ['s', 't', 'r']

/-- `Group.types.get(dtype)` (`readport.py` line 179), keeping only which
conversion was selected. -/
def typesGet (s : Name) : Option DType :=
  if s = tagName .int then some .int
  else if s = tagName .float then some .float
  else if s = tagName .str then some .str
  else none

/-- `Group` (`readport.py` lines 166-209): the grouping variable (`by`, a
Python keyword-free field name is used here) and the selected conversion. -/
structure Group where
  by_ : Option Name
  cast : Option DType
deriving DecidableEq

/-- The distinct `ConfigurationError` sites of config validation. -/
inductive ConfigErr where
  | groupByFormat
  | groupByUnknown
  | groupByType
  | regexCompile
  | unnamedGroups
  | timeReserved
deriving DecidableEq

/-- Python `s.split(":")` for a single-character separator: always returns at
least one piece; adjacent separators produce empty pieces. -/
def splitColon : Name → List Name
  | [] => [[]]
  | c :: rest =>
    if c = ':' then [] :: splitColon rest
    else
      match splitColon rest with
      | p :: ps => (c :: p) :: ps
      | [] => [[c]]

/-- `Group.from_config` (`readport.py` lines 181-202): `by, dtype =
group_by.split(":")` succeeds exactly when the split has two pieces. -/
def Group.from_config (group_by : Option Name) : Except ConfigErr Group :=
  match group_by with
  | none => .ok ⟨none, none⟩
  | some s =>
    match splitColon s with
    | [b, d] => .ok ⟨some b, typesGet d⟩
    | _ => .error .groupByFormat

/-- `Group.validate` (`readport.py` lines 211-230). -/
def Group.validate (g : Group) (names : List Name) : Except ConfigErr Unit :=
  match g.by_ with
  | none => .ok ()
  | some b =>
    if b ∉ names then .error .groupByUnknown
    else
      match g.cast with
      | none => .error .groupByType
      | some _ => .ok ()

/-- What `re.compile` reports about a pattern: the number of capture groups
(`pattern.groups`) and the named ones (`pattern.groupindex`), in order. -/
structure CompiledPattern where
  groups : Nat
  groupindex : List Name
deriving DecidableEq

/-- `validate_regex` (`readport.py` lines 580-613), over the outcome of the
external `re.compile` call. -/
def validate_regex (cp : Except Unit CompiledPattern) : Except ConfigErr (List Name) :=
  match cp with
  | .error _ => .error .regexCompile
  | .ok p =>
    if p.groups ≠ p.groupindex.length then .error .unnamedGroups
    else if timeKey ∈ p.groupindex then .error .timeReserved
    else .ok p.groupindex

/-- The validation sequence of `load_config` (`readport.py` lines 544-550):
`validate_regex`, then `Group.from_config`, then `Group.validate`, each
failure propagating as a `ConfigurationError`; on success the capture names
are the result. -/
def validateConfig (cp : Except Unit CompiledPattern) (group_by : Option Name) :
    Except ConfigErr (List Name) :=
  match validate_regex cp with
  | .error e => .error e
  | .ok names1 =>
    match Group.from_config group_by with
    | .error e => .error e
    | .ok g =>
      match g.validate names1 with
      | .error e => .error e
      | .ok _ => .ok names1

/-- The external conversion functions `int(...)`, `float(...)` and
`bytes.decode()`; `none` models the `ValueError` / `UnicodeDecodeError` they
may raise. -/
structure CastEnv where
  intCast : ByteStr → Option Value
  floatCast : ByteStr → Option Value
  strCast : ByteStr → Option Value

/-- Select the conversion function of a type tag. -/
def castFn (env : CastEnv) : DType → ByteStr → Option Value
  | .int => env.intCast
  | .float => env.floatCast
  | .str => env.strCast

/-- `match.groupdict()`: every declared capture name, mapped to its captured
bytes or to `None` for a group that did not participate in the match. -/
abbrev Groupdict := List (Name × Option ByteStr)

/-- The parser configuration: the regex engine (`re.match` on the configured
pattern, returning the groupdict of the match) as an oracle, plus the group
settings and the conversion environment (`Parser.__init__`,
`readport.py` lines 304-326). -/
structure Parser where
  matchFn : ByteStr → Option Groupdict
  group : Group
  env : CastEnv

/-- `self._cast[key]`: a `defaultdict(lambda: float)` updated with
`self._cast[group.by] = group.cast` (`readport.py` lines 325-326).  `none`
means the stored entry is Python `None` (an unvalidated group type), whose
call raises. -/
def Parser.castFor (p : Parser) (k : Name) : Option (ByteStr → Option Value) :=
  if p.group.by_ = some k then p.group.cast.map (castFn p.env)
  else some p.env.floatCast

/-- The two failure conditions of `Parser.extract`. -/
inductive ExtractErr where
  | noMatch
  | castError
deriving DecidableEq

/-- Logging levels used by the parser stage. -/
inductive LogLevel where
  | debug
  | info
  | error
deriving DecidableEq

/-- The distinct log messages of the parser stage, keeping the payloads the
claims talk about. -/
inductive LogMsg where
  | possiblyIncomplete : ByteStr → LogMsg
  | cannotParse : ByteStr → LogMsg
  | castFailed : LogMsg
  | gotRecord : LogMsg
  | cannotBuffer : PutErr → LogMsg
  | savingFailed : Nat → LogMsg
  | dataSaved : LogMsg
deriving DecidableEq

/-- A log: the sequence of `(level, message)` pairs emitted by one call. -/
abbrev Log := List (LogLevel × LogMsg)

/-- `extracted["time"] = item.timestamp`: dict assignment replaces an existing
entry in place, otherwise appends. -/
def dictInsert (d : Extracted) (k : Name) (v : Value) : Extracted :=
  if decide (k ∈ keysOf d) then d.map fun p => if p.1 = k then (k, v) else p
  else d ++ [(k, v)]

/-- The dict comprehension of `Parser.extract` (`readport.py` lines 347-351):
skip captures whose value is `None`, convert the rest left to right, raising
on the first failed conversion. -/
def convertAll (p : Parser) : Groupdict → Except Unit Extracted
  | [] => .ok []
  | (_, none) :: rest => convertAll p rest
  | (k, some v) :: rest =>
    match p.castFor k with
    | none => .error ()
    | some f =>
      match f v with
      | none => .error ()
      | some val =>
        match convertAll p rest with
        | .error e => .error e
        | .ok ext => .ok ((k, val) :: ext)

/-- `Parser.extract` (`readport.py` lines 328-368), returning the result and
the log it emits.  No match raises `ParseError`, logged at debug level for a
fresh connection and at error level otherwise; a failed conversion raises
`ParseError`, always logged at error level; on success `"time"` is set to the
item's timestamp and a debug line is emitted. -/
def Parser.extract (p : Parser) (item : Item) : Except ExtractErr Extracted × Log :=
  match p.matchFn item.data with
  | none =>
    (.error .noMatch,
     if item.fresh_connection then [(.debug, .possiblyIncomplete item.data)]
     else [(.error, .cannotParse item.data)])
  | some gd =>
    match convertAll p gd with
    | .error _ => (.error .castError, [(.error, .castFailed)])
    | .ok ext =>
      (.ok (dictInsert ext timeKey (.vFloat item.timestamp)), [(.debug, .gotRecord)])

/-- The outcome of the flush path for one group: `mkdir(parents=True)`,
`np.savez_compressed` to the `.tmp` file, and the rename, collapsed into one
external success/failure oracle. -/
abbrev FlushOracle := GroupKey → Bucket → Bool

/-- The `ParseError` causes of `Parser.write`. -/
inductive WriteErr where
  | putFailed : PutErr → WriteErr
  | saveFailed
deriving DecidableEq

/-- The result of one `Parser.write` call: the raised/returned outcome, the
buffer afterwards, and the emitted log. -/
structure WStep where
  res : Except WriteErr Unit
  buffer : Buffer
  logs : Log

/-- The flush loop of `Parser.write` (`readport.py` lines 388-414): for each
full group attempt the save; on success log info and clear (the `finally`),
then continue; on failure log the lost `pack_length` count, clear (the
`finally`), and re-raise as `ParseError`, which stops the loop. -/
def flushLoop (pl : Nat) (oracle : FlushOracle) (b : Buffer) :
    List (GroupKey × Bucket) → WStep
  | [] => ⟨.ok (), b, []⟩
  | (g, bk) :: rest =>
    if oracle g bk then
      let r := flushLoop pl oracle (b.clear g) rest
      ⟨r.res, r.buffer, (.info, .dataSaved) :: r.logs⟩
    else
      ⟨.error .saveFailed, b.clear g, [(.error, .savingFailed pl)]⟩

/-- `Parser.write` (`readport.py` lines 370-414): `Buffer.put`, whose
`AssertionError` is logged and re-raised as `ParseError`, then the flush loop
over the full groups. -/
def Parser.write (b : Buffer) (e : Extracted) (oracle : FlushOracle) : WStep :=
  match b.put e with
  | .error pe => ⟨.error (.putFailed pe), b, [(.error, .cannotBuffer pe)]⟩
  | .ok b1 => flushLoop b.pack_length oracle b1 b1.full

/-- One iteration of the `process_data` loop (`readport.py` lines 483-487):
extract, then write; a `ParseError` from either is swallowed by `continue`,
leaving the buffer untouched when `extract` failed. -/
def processItem (p : Parser) (b : Buffer) (item : Item) (oracle : FlushOracle) :
    Buffer × Log :=
  match p.extract item with
  | (.error _, logs) => (b, logs)
  | (.ok e, logs) =>
    let w := Parser.write b e oracle
    (w.buffer, logs ++ w.logs)

/-- A sequence of `Buffer.put` calls, `none` as soon as one fails. -/
def putSeq (b : Buffer) : List Extracted → Option Buffer
  | [] => some b
  | e :: rest =>
    match b.put e with
    | .ok b1 => putSeq b1 rest
    | .error _ => none

/-- The buffer after a sequence of `Parser.write` calls (each with the flush
oracle in force for that call), whether each call returned or raised. -/
def writeTrace (b : Buffer) : List (Extracted × FlushOracle) → Buffer
  | [] => b
  | c :: rest => writeTrace (Parser.write b c.1 c.2).buffer rest

/-- One observation of the reader loop's environment: either `readline`
returns a message — with the queue full or not at that instant, deciding
whether the non-blocking `queue.put` raises `Full` — or `readline` raises. -/
inductive SEntry where
  | readOk : ByteStr → Bool → SEntry
  | readErr : SEntry
deriving DecidableEq

/-- The observable actions of the reader loop. -/
inductive REvent where
  | read : ByteStr → REvent
  | reconnect : REvent
  | enqueue : ByteStr → Bool → REvent
  | queueFull : REvent
deriving DecidableEq

/-- The `listen_device` loop (`readport.py` lines 427-457) over a finite
script of environment observations, started after the initial `connect()`
(so with the fresh flag of the `TCPClient` set).  `fresh_connection` is read
before `readline`, a successful `readline` clears the client's fresh flag
(`TCPClient.readline`, line 147), a read error logs and reconnects
(`connect` sets the fresh flag, line 117), and a `Full` enqueue logs, sets
the shutdown flag and thereby ends the loop.  Returns the event trace and
the final state of the shutdown flag. -/
def readerRun (fresh : Bool) : List SEntry → List REvent × Bool
  | [] => ([], false)
  | .readErr :: rest =>
    let r := readerRun true rest
    (.reconnect :: r.1, r.2)
  | .readOk d qf :: rest =>
    if qf then ([.read d, .queueFull], true)
    else
      let r := readerRun false rest
      (.read d :: .enqueue d fresh :: r.1, r.2)

/-- The `fresh_connection` flags of the enqueued records, in order. -/
def enqFlags : List REvent → List Bool
  | [] => []
  | .enqueue _ f :: r => f :: enqFlags r
  | _ :: r => enqFlags r

/-- Modelled from the spec: the flag sequence demanded by the sentence
"`fresh_connection` is true only for the first record after a
(re)connection" — after a (re)connection the next delivered record carries
`true`, every later record of the same connection carries `false`. -/
def specFreshFlags : Bool → List SEntry → List Bool
  | _, [] => []
  | _, .readErr :: rest => specFreshFlags true rest
  | f, .readOk _ _ :: rest => f :: specFreshFlags false rest

/-- Whether an environment observation makes the enqueue fail. -/
def entryFull : SEntry → Bool
  | .readOk _ qf => qf
  | .readErr => false

/-- `Except` success as a Boolean. -/
def exceptIsOk {ε α : Type} : Except ε α → Bool
  | .ok _ => true
  | .error _ => false

/-! ### Association-list helper lemmas -/

theorem alistGet_mem {κ α : Type} [DecidableEq κ] {l : List (κ × α)} {k : κ} {v : α}
    (h : alistGet l k = some v) : (k, v) ∈ l := by
  induction l with
  | nil => simp [alistGet] at h
  | cons p r ih =>
    obtain ⟨pk, pv⟩ := p
    rw [alistGet] at h
    split at h
    · rename_i hp
      subst hp
      obtain rfl := Option.some.inj h
      exact List.mem_cons_self _ _
    · exact List.mem_cons_of_mem _ (ih h)

theorem alistGet_eq_none {κ α : Type} [DecidableEq κ] {l : List (κ × α)} {k : κ} :
    alistGet l k = none ↔ k ∉ keysOf l := by
  induction l with
  | nil => simp [alistGet, keysOf]
  | cons p r ih =>
    obtain ⟨pk, pv⟩ := p
    by_cases hp : pk = k
    · subst hp; simp [alistGet, keysOf]
    · simp [alistGet, hp, keysOf, Ne.symm hp] at ih ⊢
      exact ih

theorem alistGet_isSome {κ α : Type} [DecidableEq κ] {l : List (κ × α)} {k : κ} :
    (alistGet l k).isSome = true ↔ k ∈ keysOf l := by
  rcases h : alistGet l k with _ | v
  · simp [alistGet_eq_none.mp h]
  · simp only [Option.isSome_some, true_iff]
    have := alistGet_mem h
    exact List.mem_map_of_mem Prod.fst this

theorem alistGet_of_mem_nodup {κ α : Type} [DecidableEq κ] {l : List (κ × α)} {k : κ} {v : α}
    (hnd : (keysOf l).Nodup) (h : (k, v) ∈ l) : alistGet l k = some v := by
  induction l with
  | nil => simp at h
  | cons p r ih =>
    obtain ⟨pk, pv⟩ := p
    simp only [keysOf, List.map_cons, List.nodup_cons] at hnd
    rcases List.mem_cons.mp h with h1 | h1
    · cases h1
      simp [alistGet]
    · have hk : pk ≠ k := by
        intro heq
        subst heq
        exact hnd.1 (List.mem_map_of_mem Prod.fst h1)
      simp only [alistGet, if_neg hk]
      exact ih hnd.2 h1

theorem alistGet_set_self {κ α : Type} [DecidableEq κ] (l : List (κ × α)) (k : κ) (v : α) :
    alistGet (alistSet l k v) k = some v := by
  induction l with
  | nil => simp [alistSet, alistGet]
  | cons p r ih =>
    obtain ⟨pk, pv⟩ := p
    by_cases hp : pk = k
    · simp [alistSet, hp, alistGet]
    · simp [alistSet, hp, alistGet, ih]

theorem alistGet_set_ne {κ α : Type} [DecidableEq κ] (l : List (κ × α)) (k k' : κ) (v : α)
    (h : k' ≠ k) : alistGet (alistSet l k v) k' = alistGet l k' := by
  induction l with
  | nil => simp [alistSet, alistGet, Ne.symm h]
  | cons p r ih =>
    obtain ⟨pk, pv⟩ := p
    by_cases hp : pk = k
    · subst hp
      simp [alistSet, alistGet, Ne.symm h]
    · simp only [alistSet, if_neg hp]
      by_cases hp' : pk = k'
      · simp [alistGet, hp']
      · simp [alistGet, hp', ih]

theorem alistGet_append {κ α : Type} [DecidableEq κ] (l l' : List (κ × α)) (k : κ) :
    alistGet (l ++ l') k =
      match alistGet l k with
      | some v => some v
      | none => alistGet l' k := by
  induction l with
  | nil => simp [alistGet]
  | cons p r ih =>
    by_cases hp : p.1 = k
    · simp [alistGet, hp]
    · simp [alistGet, hp, ih]

theorem keysOf_set {κ α : Type} [DecidableEq κ] (l : List (κ × α)) (k : κ) (v : α) :
    keysOf (alistSet l k v) = if k ∈ keysOf l then keysOf l else keysOf l ++ [k] := by
  induction l with
  | nil => simp [alistSet, keysOf]
  | cons p r ih =>
    obtain ⟨pk, pv⟩ := p
    by_cases hp : pk = k
    · subst hp
      simp [alistSet, keysOf]
    · simp only [alistSet, if_neg hp, keysOf, List.map_cons] at ih ⊢
      rw [ih]
      by_cases hk : k ∈ keysOf r
      · simp [keysOf] at hk
        simp [hk, Ne.symm hp]
      · simp [keysOf] at hk
        simp [hk, Ne.symm hp]

theorem keysOf_set_nodup {κ α : Type} [DecidableEq κ] {l : List (κ × α)} {k : κ} {v : α}
    (hnd : (keysOf l).Nodup) : (keysOf (alistSet l k v)).Nodup := by
  rw [keysOf_set]
  by_cases hk : k ∈ keysOf l
  · simp [hk, hnd]
  · simp [hk, List.nodup_append, hnd]

theorem mem_alistSet_nodup {κ α : Type} [DecidableEq κ] {l : List (κ × α)} {k : κ} {v : α}
    {q : κ × α} (hnd : (keysOf l).Nodup) (h : q ∈ alistSet l k v) :
    q = (k, v) ∨ (q ∈ l ∧ q.1 ≠ k) := by
  induction l with
  | nil =>
    simp [alistSet] at h
    exact Or.inl h
  | cons p r ih =>
    obtain ⟨pk, pv⟩ := p
    simp only [keysOf, List.map_cons, List.nodup_cons] at hnd
    by_cases hp : pk = k
    · subst hp
      simp only [alistSet, if_pos rfl] at h
      rcases List.mem_cons.mp h with h1 | h1
      · exact Or.inl h1
      · right
        refine ⟨List.mem_cons_of_mem _ h1, ?_⟩
        intro hq
        exact hnd.1 (hq ▸ List.mem_map_of_mem Prod.fst h1)
    · simp only [alistSet, if_neg hp] at h
      rcases List.mem_cons.mp h with h1 | h1
      · subst h1
        exact Or.inr ⟨List.mem_cons_self _ _, hp⟩
      · rcases ih hnd.2 h1 with h2 | h2
        · exact Or.inl h2
        · exact Or.inr ⟨List.mem_cons_of_mem _ h2.1, h2.2⟩

theorem keySetEqB_iff (ks ls : List Name) :
    keySetEqB ks ls = true ↔ ∀ k, k ∈ ks ↔ k ∈ ls := by
  simp only [keySetEqB, Bool.and_eq_true, List.all_eq_true, decide_eq_true_eq]
  constructor
  · rintro ⟨h1, h2⟩ k
    exact ⟨fun hk => h1 k hk, fun hk => h2 k hk⟩
  · intro h
    exact ⟨fun k hk => (h k).mp hk, fun k hk => (h k).mpr hk⟩

/-! ### Buffer-level helper lemmas -/

theorem alistGet_clearMap {κ α : Type} [DecidableEq κ] (l : List (κ × α)) (g k : κ) (x : α) :
    alistGet (l.map fun p => if p.1 = g then (p.1, x) else p) k =
      if k = g then (alistGet l k).map fun _ => x else alistGet l k := by
  induction l with
  | nil => simp [alistGet]
  | cons p r ih =>
    obtain ⟨pk, pv⟩ := p
    by_cases hk : pk = k
    · subst hk
      by_cases hg : pk = g
      · subst hg
        simp [alistGet]
      · simp [alistGet, hg, Ne.symm hg]
    · by_cases hg : pk = g
      · subst hg
        simp [alistGet, hk, ih]
      · simp [alistGet, hg, hk, ih]

theorem bucketAt_clear (b : Buffer) (g k : GroupKey) :
    bucketAt (b.clear g) k =
      if k = g then (bucketAt b k).map fun _ => ([] : Bucket) else bucketAt b k :=
  alistGet_clearMap b.buf g k []

theorem keysOf_clear (b : Buffer) (g : GroupKey) :
    keysOf (b.clear g).buf = keysOf b.buf := by
  show keysOf (b.buf.map _) = _
  unfold keysOf
  rw [List.map_map]
  apply List.map_congr_left
  intro p _
  by_cases hp : p.1 = g <;> simp [hp]

theorem timeLen_nil : timeLen [] = 0 := rfl

theorem timeLen_bucketAppend (bk : Bucket) (k : Name) (v : Value) :
    timeLen (bucketAppend bk k v) = timeLen bk + (if k = timeKey then 1 else 0) := by
  unfold bucketAppend
  rcases h : alistGet bk k with _ | vs
  · unfold timeLen
    rw [alistGet_append]
    by_cases hk : k = timeKey
    · subst hk
      rw [h]
      simp [alistGet, h]
    · rcases ht : alistGet bk timeKey with _ | ts
      · simp [alistGet, Ne.symm hk, hk]
      · simp [hk]
  · unfold timeLen
    by_cases hk : k = timeKey
    · subst hk
      rw [alistGet_set_self, h]
      simp
    · rw [alistGet_set_ne _ _ _ _ (Ne.symm hk)]
      simp [hk]

theorem timeLen_putItems_not (bk : Bucket) (e : Extracted)
    (ht : timeKey ∉ keysOf e) : timeLen (putItems bk e) = timeLen bk := by
  induction e generalizing bk with
  | nil => rfl
  | cons p rest ih =>
    rw [keysOf_cons] at ht
    rw [List.mem_cons, not_or] at ht
    rw [putItems, ih _ ht.2, timeLen_bucketAppend, if_neg (fun hp => ht.1 hp.symm)]
    omega

theorem timeLen_putItems_mem (bk : Bucket) (e : Extracted)
    (hnd : (keysOf e).Nodup) (ht : timeKey ∈ keysOf e) :
    timeLen (putItems bk e) = timeLen bk + 1 := by
  induction e generalizing bk with
  | nil => simp [keysOf_nil] at ht
  | cons p rest ih =>
    rw [keysOf_cons] at ht hnd
    rw [List.nodup_cons] at hnd
    rw [putItems]
    rcases List.mem_cons.mp ht with h1 | h1
    · rw [timeLen_putItems_not _ _ (by rw [← h1] at hnd; exact hnd.1),
        timeLen_bucketAppend, if_pos h1.symm]
    · rw [ih _ hnd.2 h1, timeLen_bucketAppend]
      have hp : p.1 ≠ timeKey := fun hp => hnd.1 (hp ▸ h1)
      rw [if_neg hp]

/-- Case analysis of a successful `Buffer.put`: either the non-empty-bucket
path with all three assertions passed, or the first-record path (absent or
empty bucket). -/
theorem put_ok_cases {b : Buffer} {e : Extracted} {b1 : Buffer}
    (h : b.put e = .ok b1) :
    (∃ bk, bucketAt b (getGroup e b.group_by) = some bk ∧ bk ≠ [] ∧
        keySetEqB (keysOf e) (keysOf bk) = true ∧ timeKey ∈ keysOf bk ∧
        timeLen bk < b.pack_length ∧
        b1 = { b with buf := alistSet b.buf (getGroup e b.group_by) (putItems bk e) }) ∨
    ((bucketAt b (getGroup e b.group_by) = none ∨
        bucketAt b (getGroup e b.group_by) = some []) ∧
        b1 = { b with buf := alistSet b.buf (getGroup e b.group_by) (putItems [] e) }) := by
  simp only [Buffer.put] at h
  split at h
  · rename_i bk hbk
    split at h
    · rename_i hemp
      obtain rfl := Except.ok.inj h
      right
      rw [List.isEmpty_iff] at hemp
      exact ⟨Or.inr (hemp ▸ hbk), rfl⟩
    · rename_i hemp
      split at h
      · exact absurd h (by simp)
      · rename_i hkeys
        split at h
        · exact absurd h (by simp)
        · rename_i htm
          split at h
          · exact absurd h (by simp)
          · rename_i hfull
            obtain rfl := Except.ok.inj h
            left
            refine ⟨bk, hbk, fun hnil => hemp (by simp [hnil]), ?_, not_not.mp htm, by omega, rfl⟩
            cases hks : keySetEqB (keysOf e) (keysOf bk)
            · exact absurd hks hkeys
            · rfl
  · rename_i hbk
    obtain rfl := Except.ok.inj h
    exact Or.inr ⟨Or.inl hbk, rfl⟩

theorem put_ok_pack {b : Buffer} {e : Extracted} {b1 : Buffer}
    (h : b.put e = .ok b1) :
    b1.pack_length = b.pack_length ∧ b1.group_by = b.group_by := by
  rcases put_ok_cases h with ⟨bk, _, _, _, _, _, rfl⟩ | ⟨_, rfl⟩ <;> exact ⟨rfl, rfl⟩

/-- Under the buffer invariant, the "Cannot add to a buffer that is already
full" assertion of `Buffer.put` cannot fire. -/
theorem put_not_bufferFull {b : Buffer} {e : Extracted}
    (hinv : ∀ p ∈ b.buf, timeLen p.2 < b.pack_length) :
    b.put e ≠ .error .bufferFull := by
  intro h
  simp only [Buffer.put] at h
  split at h
  · rename_i bk hbk
    split at h
    · exact absurd h (by simp)
    · split at h
      · exact absurd h (by simp)
      · split at h
        · exact absurd h (by simp)
        · split at h
          · rename_i hfull
            have hm := alistGet_mem hbk
            have h2 : timeLen bk < b.pack_length := hinv _ hm
            omega
          · exact absurd h (by simp)
  · exact absurd h (by simp)

/-! ### Claim C2 -/

/-- Claim C2: for every message that does not match the configured pattern,
`Parser.extract` fails with the no-match `ParseError`, the failure is logged
at debug level when the record's `fresh_connection` flag is true and at error
level otherwise, and the processing step leaves the Group Buffer unchanged. -/
theorem c2_no_match_drops_record (p : Parser) (b : Buffer) (item : Item)
    (oracle : FlushOracle) (h : p.matchFn item.data = none) :
    (p.extract item).1 = .error .noMatch ∧
    (p.extract item).2 =
      (if item.fresh_connection then [(.debug, .possiblyIncomplete item.data)]
       else [(.error, .cannotParse item.data)]) ∧
    (processItem p b item oracle).1 = b := by
  have he : p.extract item =
      (.error .noMatch,
       if item.fresh_connection then [(.debug, .possiblyIncomplete item.data)]
       else [(.error, .cannotParse item.data)]) := by
    unfold Parser.extract
    rw [h]
  refine ⟨by rw [he], by rw [he], ?_⟩
  unfold processItem
  rw [he]

def c2P : Parser :=
  ⟨fun _ => none, ⟨none, none⟩, ⟨fun _ => none, fun _ => none, fun _ => none⟩⟩

def c2Item : Item := ⟨[55], 0, false⟩

theorem c2_witness :
    c2P.matchFn c2Item.data = none ∧
    ((c2P.extract c2Item).1 = .error .noMatch ∧
     (c2P.extract c2Item).2 =
       (if c2Item.fresh_connection then [(.debug, .possiblyIncomplete c2Item.data)]
        else [(.error, .cannotParse c2Item.data)]) ∧
     (processItem c2P (Buffer.init 5 none) c2Item (fun _ _ => true)).1 = Buffer.init 5 none) :=
  ⟨rfl, c2_no_match_drops_record c2P (Buffer.init 5 none) c2Item (fun _ _ => true) rfl⟩

/-! ### Claim C3 -/

/-- Claim C3: a `put` routed to a non-empty bucket whose field set differs
from the record's always fails before mutating any existing sequence:
through `Parser.write` the record is dropped with a `ParseError`, an
error-level line is logged, and the buffer comes back unchanged. -/
theorem c3_schema_drift_rejected (b : Buffer) (e : Extracted) (oracle : FlushOracle)
    (bk : Bucket) (hbk : bucketAt b (getGroup e b.group_by) = some bk) (hne : bk ≠ [])
    (hdiff : ¬ ∀ k, k ∈ keysOf e ↔ k ∈ keysOf bk) :
    Parser.write b e oracle =
      ⟨.error (.putFailed .keysMismatch), b, [(.error, .cannotBuffer .keysMismatch)]⟩ := by
  have hemp : bk.isEmpty = false := by
    cases bk with
    | nil => exact absurd rfl hne
    | cons q r => rfl
  have hks : keySetEqB (keysOf e) (keysOf bk) = false := by
    cases hq : keySetEqB (keysOf e) (keysOf bk)
    · rfl
    · exact absurd ((keySetEqB_iff _ _).mp hq) hdiff
  have hput : b.put e = .error .keysMismatch := by
    simp [Buffer.put, hbk, hemp, hks]
  simp [Parser.write, hput]

def c3Buf : Buffer :=
  ⟨3, none, [(none, [(timeKey, [Value.vInt 1]), (['u'], [Value.vInt 2])])]⟩

def c3Rec : Extracted := [(timeKey, Value.vInt 3), (['w'], Value.vInt 4)]

theorem c3_witness :
    bucketAt c3Buf (getGroup c3Rec c3Buf.group_by) =
      some [(timeKey, [Value.vInt 1]), (['u'], [Value.vInt 2])] ∧
    Parser.write c3Buf c3Rec (fun _ _ => true) =
      ⟨.error (.putFailed .keysMismatch), c3Buf, [(.error, .cannotBuffer .keysMismatch)]⟩ :=
  ⟨rfl, c3_schema_drift_rejected c3Buf c3Rec (fun _ _ => true) _ rfl (by decide)
    (fun hall => absurd ((hall ['w']).mp (by decide)) (by decide))⟩

/-! ### Claim C10 -/

theorem putItems_disjoint (bk : Bucket) (e : Extracted) (hnd : (keysOf e).Nodup)
    (hdisj : ∀ k ∈ keysOf e, k ∉ keysOf bk) :
    putItems bk e = bk ++ e.map fun q => (q.1, [q.2]) := by
  induction e generalizing bk with
  | nil => simp [putItems]
  | cons p rest ih =>
    rw [keysOf_cons] at hnd hdisj
    rw [List.nodup_cons] at hnd
    have hp : alistGet bk p.1 = none :=
      alistGet_eq_none.mpr (hdisj p.1 (List.mem_cons_self _ _))
    have hba : bucketAppend bk p.1 p.2 = bk ++ [(p.1, [p.2])] := by
      unfold bucketAppend
      rw [hp]
    rw [putItems, hba, ih _ hnd.2]
    · simp
    · intro k hk
      rw [keysOf_append]
      simp only [List.mem_append, not_or]
      refine ⟨hdisj k (List.mem_cons_of_mem _ hk), ?_⟩
      intro hk2
      have : k = p.1 := by simpa [keysOf] using hk2
      exact hnd.1 (this ▸ hk)

/-- Claim C10: after `clear`, the bucket for the key is the empty dict, so the
next `put` routed to it takes the first-record path: it is accepted with no
field-set consistency check against the previous batch, and it re-initializes
singleton sequences for exactly its own field set, leaving other groups
untouched. -/
theorem c10_clear_resets_schema (b : Buffer) (e : Extracted)
    (hbk : bucketAt b (getGroup e b.group_by) = some [])
    (hnd : (keysOf e).Nodup) :
    ∃ b1, b.put e = .ok b1 ∧
      bucketAt b1 (getGroup e b.group_by) = some (e.map fun q => (q.1, [q.2])) ∧
      ∀ g, g ≠ getGroup e b.group_by → bucketAt b1 g = bucketAt b g := by
  have hput : b.put e =
      .ok { b with buf := alistSet b.buf (getGroup e b.group_by) (putItems [] e) } := by
    simp [Buffer.put, hbk]
  refine ⟨_, hput, ?_, ?_⟩
  · show alistGet (alistSet b.buf _ _) _ = _
    rw [alistGet_set_self]
    rw [putItems_disjoint [] e hnd (by intro k _; simp [keysOf_nil])]
    rfl
  · intro g hg
    show alistGet (alistSet b.buf _ _) g = _
    rw [alistGet_set_ne _ _ _ _ hg]
    rfl

def c10Buf : Buffer := ⟨2, none, [(none, [])]⟩

def c10Rec : Extracted := [(['w'], Value.vInt 5)]

theorem c10_witness :
    bucketAt c10Buf (getGroup c10Rec c10Buf.group_by) = some [] ∧
    ∃ b1, c10Buf.put c10Rec = .ok b1 ∧
      bucketAt b1 (getGroup c10Rec c10Buf.group_by) =
        some (c10Rec.map fun q => (q.1, [q.2])) ∧
      ∀ g, g ≠ getGroup c10Rec c10Buf.group_by → bucketAt b1 g = bucketAt c10Buf g :=
  ⟨rfl, c10_clear_resets_schema c10Buf c10Rec rfl (by decide)⟩

/-! ### Claim C1 -/

theorem convertAll_ok (p : Parser) (gd : Groupdict)
    (hnd : (keysOf gd).Nodup)
    (hc : ∀ k v, (k, some v) ∈ gd → ∃ f, p.castFor k = some f ∧ (f v).isSome = true) :
    ∃ ext, convertAll p gd = .ok ext ∧
      keysOf ext = keysOf (gd.filter fun q => q.2.isSome) ∧
      ∀ k v, (k, some v) ∈ gd →
        ∃ f w, p.castFor k = some f ∧ f v = some w ∧ alistGet ext k = some w := by
  induction gd with
  | nil => exact ⟨[], rfl, rfl, by intro k v h; simp at h⟩
  | cons q rest ih =>
    obtain ⟨qk, qv⟩ := q
    rw [keysOf_cons] at hnd
    rw [List.nodup_cons] at hnd
    obtain ⟨ext0, hca, hkeys, hvals⟩ :=
      ih hnd.2 (fun k v h => hc k v (List.mem_cons_of_mem _ h))
    cases qv with
    | none =>
      refine ⟨ext0, by rw [convertAll, hca], by rw [hkeys]; rfl, ?_⟩
      intro k v h
      rcases List.mem_cons.mp h with h1 | h1
      · simp at h1
      · exact hvals k v h1
    | some v0 =>
      obtain ⟨f, hf, hfv⟩ := hc qk v0 (List.mem_cons_self _ _)
      obtain ⟨w, hw⟩ := Option.isSome_iff_exists.mp hfv
      refine ⟨(qk, w) :: ext0, ?_, ?_, ?_⟩
      · simp only [convertAll, hf, hw, hca]
      · rw [keysOf_cons, hkeys]
        rfl
      · intro k v h
        rcases List.mem_cons.mp h with h1 | h1
        · obtain ⟨rfl, hv⟩ := Prod.mk.injEq .. ▸ h1
          obtain rfl := Option.some.inj hv
          exact ⟨f, w, hf, hw, by rw [alistGet]; simp⟩
        · obtain ⟨f2, w2, hf2, hw2, hget2⟩ := hvals k v h1
        
          have hk : qk ≠ k := by
            have hq : qk ∉ keysOf rest := hnd.1
            intro heq
            subst heq
            exact hq (List.mem_map_of_mem Prod.fst h1)
          exact ⟨f2, w2, hf2, hw2, by rw [alistGet, if_neg hk]; exact hget2⟩

/-- Claim C1, amended: for every message that matches the configured pattern
and whose participating captures all convert successfully under their declared
types (the group variable's declared tag, every other capture defaulting to
float), `extract` returns a mapping whose keys are exactly the participating
capture names plus `"time"`, with `"time"` equal to the record's timestamp and
every captured value equal to its declared conversion.  (When some conversion
fails, `extract` raises `ParseError` instead — see the counterexample.) -/
theorem c1_match_extracts_all_fields (p : Parser) (item : Item) (gd : Groupdict)
    (hm : p.matchFn item.data = some gd)
    (hnd : (keysOf gd).Nodup)
    (htime : timeKey ∉ keysOf gd)
    (hc : ∀ k v, (k, some v) ∈ gd → ∃ f, p.castFor k = some f ∧ (f v).isSome = true) :
    ∃ ext, (p.extract item).1 = .ok ext ∧
      keysOf ext = keysOf (gd.filter fun q => q.2.isSome) ++ [timeKey] ∧
      alistGet ext timeKey = some (.vFloat item.timestamp) ∧
      ∀ k v, (k, some v) ∈ gd →
        ∃ f w, p.castFor k = some f ∧ f v = some w ∧ alistGet ext k = some w := by
  obtain ⟨ext0, hca, hkeys, hvals⟩ := convertAll_ok p gd hnd hc
  have hsub : keysOf (gd.filter fun q => q.2.isSome) ⊆ keysOf gd := by
    show List.map Prod.fst _ ⊆ List.map Prod.fst _
    exact ((List.filter_sublist _).map Prod.fst).subset
  have htime0 : timeKey ∉ keysOf ext0 := by
    rw [hkeys]
    exact fun hmem => htime (hsub hmem)
  have hins : dictInsert ext0 timeKey (.vFloat item.timestamp) =
      ext0 ++ [(timeKey, .vFloat item.timestamp)] := by
    simp [dictInsert, htime0]
  have hext : (p.extract item).1 = .ok (ext0 ++ [(timeKey, .vFloat item.timestamp)]) := by
    simp only [Parser.extract, hm, hca, hins]
  refine ⟨_, hext, ?_, ?_, ?_⟩
  · rw [keysOf_append, hkeys]
    rfl
  · rw [alistGet_append, alistGet_eq_none.mpr htime0]
    simp [alistGet]
  · intro k v h
    obtain ⟨f, w, hf, hw, hget⟩ := hvals k v h
    exact ⟨f, w, hf, hw, by rw [alistGet_append, hget]⟩

def c1xEnv : CastEnv :=
  ⟨fun _ => none,
   fun bs =>
     match bs with
     | [d] => if 48 ≤ d ∧ d ≤ 57 then some (.vFloat ((d : ℚ) - 48)) else none
     | _ => none,
   fun _ => none⟩

def c1xData : ByteStr := [97]

def c1xP : Parser :=
  ⟨fun d => if d = c1xData then some [(['u'], some c1xData)] else none,
   ⟨none, none⟩, c1xEnv⟩

def c1xItem : Item := ⟨c1xData, 0, false⟩

/-- Counterexample to claim C1 as stated: the message `b"a"` matches the
pattern (one participating capture `u`), yet `extract` does not return a
mapping at all — the default float conversion of the captured bytes fails
(Python `float(b"a")` raises `ValueError`), so `extract` raises `ParseError`
with the cast-error condition. -/
theorem c1_counterexample :
    (c1xP.matchFn c1xItem.data).isSome = true ∧
    exceptIsOk (c1xP.extract c1xItem).1 = false ∧
    (c1xP.extract c1xItem).1 = .error .castError :=
  ⟨rfl, rfl, rfl⟩

def c1wGd : Groupdict := [(['u'], some [49]), (['w'], none)]

def c1wP : Parser := ⟨fun d => if d = [49] then some c1wGd else none, ⟨none, none⟩, c1xEnv⟩

def c1wItem : Item := ⟨[49], 7, true⟩

theorem c1_witness :
    c1wP.matchFn c1wItem.data = some c1wGd ∧
    ∃ ext, (c1wP.extract c1wItem).1 = .ok ext ∧
      keysOf ext = keysOf (c1wGd.filter fun q => q.2.isSome) ++ [timeKey] ∧
      alistGet ext timeKey = some (.vFloat c1wItem.timestamp) ∧
      ∀ k v, (k, some v) ∈ c1wGd →
        ∃ f w, c1wP.castFor k = some f ∧ f v = some w ∧ alistGet ext k = some w :=
  ⟨rfl, c1_match_extracts_all_fields c1wP c1wItem c1wGd rfl (by decide) (by decide)
    (by
      intro k v h
      simp [c1wGd] at h
      obtain ⟨rfl, rfl⟩ := h
      exact ⟨_, rfl, rfl⟩)⟩

/-! ### Claim C6 -/

/-- Claim C6: whenever the reader attempts to enqueue onto a full Transport
Queue (the non-blocking `queue.put` raises `Full`, the bounded channel
rejecting the record), the shutdown flag becomes true and the queue-full
event is the last event of the run — in particular the reader performs no
further reads afterwards. -/
theorem c6_queue_full_stops_reader (fresh : Bool) (script : List SEntry)
    (pre post : List REvent)
    (h : (readerRun fresh script).1 = pre ++ .queueFull :: post) :
    post = [] ∧ (readerRun fresh script).2 = true := by
  induction script generalizing fresh pre with
  | nil =>
    simp only [readerRun] at h
    exact absurd h.symm (by simp)
  | cons entry rest ih =>
    cases entry with
    | readErr =>
      simp only [readerRun] at h ⊢
      rcases pre with _ | ⟨a, pre2⟩
      · simp at h
      · rw [List.cons_append] at h
        injection h with h1 h2
        exact ih true pre2 h2
    | readOk d qf =>
      cases qf with
      | true =>
        simp only [readerRun, if_true] at h ⊢
        rcases pre with _ | ⟨a, _ | ⟨b, pre3⟩⟩
        · simp at h
        · simp at h
          exact ⟨h.2, trivial⟩
        · simp at h
      | false =>
        simp only [readerRun, if_false, Bool.false_eq_true] at h ⊢
        rcases pre with _ | ⟨a, _ | ⟨b, pre3⟩⟩
        · simp at h
        · simp at h
        · rw [List.cons_append, List.cons_append] at h
          injection h with h1 h2
          injection h2 with h3 h4
          exact ih false pre3 h4

def c6Script : List SEntry := [.readOk [1] false, .readOk [2] true, .readOk [3] false]

theorem c6_witness :
    (readerRun true c6Script).1 =
      [.read [1], .enqueue [1] true, .read [2]] ++ .queueFull :: ([] : List REvent) ∧
    (readerRun true c6Script).2 = true :=
  ⟨rfl, (c6_queue_full_stops_reader true c6Script
    [.read [1], .enqueue [1] true, .read [2]] [] rfl).2⟩

/-! ### Claim C8 -/

/-- Claim C8: in every run of the reader in which the queue never rejects an
enqueue, the `fresh_connection` flags of the enqueued records are exactly the
flags demanded by the spec sentence — true for the first record after each
(re)connection, false for every later record of the same connection.  The run
starts right after the initial `connect()`, whose fresh flag is the first
argument. -/
theorem c8_fresh_flag_first_after_reconnect (fresh : Bool) (script : List SEntry)
    (hfull : ∀ s ∈ script, entryFull s = false) :
    enqFlags (readerRun fresh script).1 = specFreshFlags fresh script := by
  induction script generalizing fresh with
  | nil => rfl
  | cons entry rest ih =>
    cases entry with
    | readErr =>
      simp only [readerRun, specFreshFlags, enqFlags]
      exact ih true fun s hs => hfull s (List.mem_cons_of_mem _ hs)
    | readOk d qf =>
      have hq : qf = false := hfull _ (List.mem_cons_self _ _)
      subst hq
      simp only [readerRun, if_false, Bool.false_eq_true, specFreshFlags, enqFlags]
      rw [ih false fun s hs => hfull s (List.mem_cons_of_mem _ hs)]

def c8Script : List SEntry :=
  [.readOk [1] false, .readErr, .readOk [2] false, .readOk [3] false]

theorem c8_witness :
    (∀ s ∈ c8Script, entryFull s = false) ∧
    enqFlags (readerRun true c8Script).1 = specFreshFlags true c8Script :=
  ⟨by decide, c8_fresh_flag_first_after_reconnect true c8Script (by decide)⟩

/-! ### Claim C5 -/

theorem clear_keeps_some_nil (b : Buffer) (g2 g : GroupKey)
    (h : bucketAt b g = some []) : bucketAt (b.clear g2) g = some [] := by
  rw [bucketAt_clear]
  by_cases hg : g = g2
  · rw [if_pos hg, h]
    rfl
  · rw [if_neg hg]
    exact h

theorem bucketAt_clear_mem (b : Buffer) (g : GroupKey) (h : g ∈ keysOf b.buf) :
    bucketAt (b.clear g) g = some [] := by
  rw [bucketAt_clear, if_pos rfl]
  rcases hb : bucketAt b g with _ | bk
  · exact absurd h (by rwa [← alistGet_eq_none] )
  · rfl

theorem flushLoop_keeps_cleared (pl : Nat) (oracle : FlushOracle) :
    ∀ (fl : List (GroupKey × Bucket)) (b : Buffer) (g : GroupKey),
      bucketAt b g = some [] →
      bucketAt (flushLoop pl oracle b fl).buffer g = some []
  | [], b, g, h => h
  | (g2, bk2) :: rest, b, g, h => by
    rw [flushLoop]
    split
    · exact flushLoop_keeps_cleared pl oracle rest (b.clear g2) g
        (clear_keeps_some_nil b g2 g h)
    · exact clear_keeps_some_nil b g2 g h

theorem flushLoop_spec (pl : Nat) (oracle : FlushOracle) :
    ∀ (fl : List (GroupKey × Bucket)) (b : Buffer),
      (∀ pr ∈ fl, pr.1 ∈ keysOf b.buf) →
      (((flushLoop pl oracle b fl).res = .ok () →
          ∀ pr ∈ fl, bucketAt (flushLoop pl oracle b fl).buffer pr.1 = some []) ∧
       ((flushLoop pl oracle b fl).res = .error .saveFailed →
          (.error, .savingFailed pl) ∈ (flushLoop pl oracle b fl).logs ∧
          ∃ pr ∈ fl, oracle pr.1 pr.2 = false ∧
            bucketAt (flushLoop pl oracle b fl).buffer pr.1 = some []))
  | [], b, hkeys => by
    constructor
    · intro _ pr hpr
      simp at hpr
    · intro hres
      exact absurd hres (by simp [flushLoop])
  | (g, bk) :: rest, b, hkeys => by
    have hg : g ∈ keysOf b.buf := hkeys (g, bk) (List.mem_cons_self _ _)
    rcases horc : oracle g bk with _ | _
    · -- save failed: the loop stops after clearing this group
      have hl : flushLoop pl oracle b ((g, bk) :: rest) =
          ⟨.error .saveFailed, b.clear g, [(.error, .savingFailed pl)]⟩ := by
        rw [flushLoop, if_neg (by rw [horc]; exact Bool.false_ne_true)]
      rw [hl]
      constructor
      · intro hres
        exact absurd hres (by simp)
      · intro _
        exact ⟨List.mem_singleton_self _,
          ⟨(g, bk), List.mem_cons_self _ _, horc, bucketAt_clear_mem b g hg⟩⟩
    · -- save succeeded: clear and continue with the rest
      have hkeys2 : ∀ pr ∈ rest, pr.1 ∈ keysOf (b.clear g).buf := by
        intro pr hpr
        rw [keysOf_clear]
        exact hkeys pr (List.mem_cons_of_mem _ hpr)
      obtain ⟨ih1, ih2⟩ := flushLoop_spec pl oracle rest (b.clear g) hkeys2
      have hl : flushLoop pl oracle b ((g, bk) :: rest) =
          ⟨(flushLoop pl oracle (b.clear g) rest).res,
           (flushLoop pl oracle (b.clear g) rest).buffer,
           (.info, .dataSaved) :: (flushLoop pl oracle (b.clear g) rest).logs⟩ := by
        rw [flushLoop, if_pos horc]
      rw [hl]
      constructor
      · intro hres pr hpr
        rcases List.mem_cons.mp hpr with h1 | h1
        · subst h1
          exact flushLoop_keeps_cleared pl oracle rest (b.clear g) g
            (bucketAt_clear_mem b g hg)
        · exact ih1 hres pr h1
      · intro hres
        obtain ⟨hlog, pr, hpr, ho, hb⟩ := ih2 hres
        exact ⟨List.mem_cons_of_mem _ hlog, pr, List.mem_cons_of_mem _ hpr, ho, hb⟩

/-- Claim C5: after a successful `put`, any failure in the flush path of
`Parser.write` is reported with the size of the lost batch (`pack_length`
data points, logged at error level), and every group the flush loop touched —
including the failing one — has its in-memory bucket cleared to empty whether
its flush succeeded or failed; on an error-free write every full bucket ends
up cleared. -/
theorem c5_flush_failure_bounded (b : Buffer) (e : Extracted) (oracle : FlushOracle)
    (b1 : Buffer) (hput : b.put e = .ok b1) :
    ((Parser.write b e oracle).res = .ok () →
       ∀ pr ∈ b1.full, bucketAt (Parser.write b e oracle).buffer pr.1 = some []) ∧
    ((Parser.write b e oracle).res = .error .saveFailed →
       (.error, .savingFailed b.pack_length) ∈ (Parser.write b e oracle).logs ∧
       ∃ pr ∈ b1.full, oracle pr.1 pr.2 = false ∧
         bucketAt (Parser.write b e oracle).buffer pr.1 = some []) := by
  have hw : Parser.write b e oracle = flushLoop b.pack_length oracle b1 b1.full := by
    simp [Parser.write, hput]
  have hkeys : ∀ pr ∈ b1.full, pr.1 ∈ keysOf b1.buf := by
    intro pr hpr
    simp only [Buffer.full] at hpr
    exact List.mem_map_of_mem Prod.fst (List.mem_of_mem_filter hpr)
  obtain ⟨h1, h2⟩ := flushLoop_spec b.pack_length oracle b1.full b1 hkeys
  rw [hw]
  exact ⟨h1, h2⟩

def c5Buf : Buffer := ⟨1, none, []⟩

def c5Rec : Extracted := [(timeKey, Value.vFloat 0)]

def c5Buf1 : Buffer := ⟨1, none, [(none, [(timeKey, [Value.vFloat 0])])]⟩

theorem c5_witness :
    c5Buf.put c5Rec = .ok c5Buf1 ∧
    (((Parser.write c5Buf c5Rec fun _ _ => false).res = .ok () →
       ∀ pr ∈ c5Buf1.full,
         bucketAt (Parser.write c5Buf c5Rec fun _ _ => false).buffer pr.1 = some []) ∧
     ((Parser.write c5Buf c5Rec fun _ _ => false).res = .error .saveFailed →
       (.error, .savingFailed c5Buf.pack_length) ∈
         (Parser.write c5Buf c5Rec fun _ _ => false).logs ∧
       ∃ pr ∈ c5Buf1.full, (fun _ _ => false : FlushOracle) pr.1 pr.2 = false ∧
         bucketAt (Parser.write c5Buf c5Rec fun _ _ => false).buffer pr.1 = some [])) :=
  ⟨rfl, c5_flush_failure_bounded c5Buf c5Rec (fun _ _ => false) c5Buf1 rfl⟩

/-! ### Claim C7 -/

theorem splitColon_ne_nil (s : Name) : splitColon s ≠ [] := by
  induction s with
  | nil => simp [splitColon]
  | cons c rest ih =>
    rw [splitColon]
    by_cases hc : c = ':'
    · simp [hc]
    · rw [if_neg hc]
      rcases h : splitColon rest with _ | ⟨p, ps⟩
      · simp
      · simp

theorem splitColon_single (s : Name) : ∀ t, splitColon s = [t] ↔ s = t ∧ ':' ∉ s := by
  induction s with
  | nil =>
    intro t
    rw [splitColon]
    constructor
    · intro h
      injection h with h1 h2
      simp [h1.symm]
    · rintro ⟨rfl, _⟩
      rfl
  | cons c rest ih =>
    intro t
    by_cases hc : c = ':'
    · subst hc
      rw [splitColon, if_pos rfl]
      constructor
      · intro h
        injection h with h1 h2
        exact absurd h2 (splitColon_ne_nil rest)
      · rintro ⟨rfl, h2⟩
        exact absurd (List.mem_cons_self _ _) h2
    · rw [splitColon, if_neg hc]
      rcases hrest : splitColon rest with _ | ⟨p, ps⟩
      · exact absurd hrest (splitColon_ne_nil rest)
      · constructor
        · intro h
          injection h with h1 h2
          subst h2
          obtain ⟨rfl, hnm⟩ := (ih p).mp hrest
          subst h1
          refine ⟨rfl, ?_⟩
          intro hm
          rcases List.mem_cons.mp hm with hm1 | hm1
          · exact hc hm1.symm
          · exact hnm hm1
        · rintro ⟨rfl, hnm⟩
          have hns : ':' ∉ rest := fun hm => hnm (List.mem_cons_of_mem _ hm)
          have h2 := (ih rest).mpr ⟨rfl, hns⟩
          rw [hrest] at h2
          injection h2 with h3 h4
          subst h3
          subst h4
          rfl

theorem splitColon_pair (s : Name) : ∀ a bp : Name,
    splitColon s = [a, bp] ↔ s = a ++ ':' :: bp ∧ ':' ∉ a ∧ ':' ∉ bp := by
  induction s with
  | nil =>
    intro a bp
    rw [splitColon]
    constructor
    · intro h
      injection h with h1 h2
      exact absurd h2 (by simp)
    · rintro ⟨h, -, -⟩
      have := congrArg List.length h
      simp at this
      omega
  | cons c rest ih =>
    intro a bp
    by_cases hc : c = ':'
    · subst hc
      rw [splitColon, if_pos rfl]
      constructor
      · intro h
        injection h with h1 h2
        cases h1
        obtain ⟨rfl, hnm⟩ := (splitColon_single rest bp).mp h2
        exact ⟨rfl, by simp, hnm⟩
      · rintro ⟨h, ha, hbp⟩
        rcases a with _ | ⟨x, a2⟩
        · rw [List.nil_append] at h
          injection h with h1 h2
          subst h2
          rw [(splitColon_single rest rest).mpr ⟨rfl, hbp⟩]
        · rw [List.cons_append] at h
          injection h with h1 h2
          apply absurd _ ha
          rw [← h1]
          exact List.mem_cons_self _ _
    · rw [splitColon, if_neg hc]
      rcases hrest : splitColon rest with _ | ⟨p, ps⟩
      · exact absurd hrest (splitColon_ne_nil rest)
      · constructor
        · intro h
          injection h with h1 h2
          subst h2
          subst h1
          obtain ⟨hr, hp, hbp⟩ := (ih p bp).mp hrest
          refine ⟨by rw [hr]; rfl, ?_, hbp⟩
          intro hm
          rcases List.mem_cons.mp hm with hm1 | hm1
          · exact hc hm1.symm
          · exact hp hm1
        · rintro ⟨h, ha, hbp⟩
          rcases a with _ | ⟨x, a2⟩
          · rw [List.nil_append] at h
            injection h with h1 h2
            exact absurd h1 hc
          · rw [List.cons_append] at h
            injection h with h1 h2
            subst h1
            have h3 : splitColon rest = [a2, bp] :=
              (ih a2 bp).mpr ⟨h2, fun hm => ha (List.mem_cons_of_mem _ hm), hbp⟩
            rw [hrest] at h3
            injection h3 with h4 h5
            subst h4
            subst h5
            rfl

theorem colon_not_mem_tagName (t : DType) : ':' ∉ tagName t := by
  cases t <;> decide

theorem typesGet_eq_some (d : Name) (t : DType) : typesGet d = some t ↔ d = tagName t := by
  constructor
  · intro h
    unfold typesGet at h
    split_ifs at h with h1 h2 h3
    all_goals
      obtain rfl := Option.some.inj h
    all_goals
      assumption
  · rintro rfl
    cases t <;> rfl

/-- Modelled from the claim's words: the enumerated failure conditions of
configuration validation — the pattern does not compile, some capture group
is unnamed, the name `"time"` is used as a capture name, or a declared group
key that is not one of the declared capture names together with a resolvable
type tag in the `name:type` format. -/
def claimFailCond (cp : Except Unit CompiledPattern) (group_by : Option Name) : Prop :=
  (∃ u, cp = .error u) ∨
  ∃ p, cp = .ok p ∧
    (p.groupindex.length < p.groups ∨ timeKey ∈ p.groupindex ∨
     ∃ s, group_by = some s ∧
       ¬ ∃ n t, n ∈ p.groupindex ∧ s = n ++ ':' :: tagName t)

/-- Claim C7: configuration validation fails with a configuration error if
and only if one of the enumerated conditions holds — the pattern does not
compile, some capture group is unnamed, `"time"` is used as a capture name,
or a declared group key is not one of the declared capture names with a
resolvable type; otherwise validation returns the capture names.  The two
hypotheses record facts true of every real compiled pattern: named groups
are a subset of all capture groups, and group names (identifiers) never
contain `:`. -/
theorem c7_validation_iff (cp : Except Unit CompiledPattern) (group_by : Option Name)
    (hle : ∀ p, cp = .ok p → p.groupindex.length ≤ p.groups)
    (hnc : ∀ p, cp = .ok p → ∀ n ∈ p.groupindex, ':' ∉ n) :
    ((∃ err, validateConfig cp group_by = .error err) ↔ claimFailCond cp group_by) ∧
    (∀ vs, validateConfig cp group_by = .ok vs → ∃ p, cp = .ok p ∧ vs = p.groupindex) := by
  rcases cp with u | p
  · refine ⟨⟨fun _ => Or.inl ⟨u, rfl⟩, fun _ => ⟨.regexCompile, rfl⟩⟩, ?_⟩
    intro vs hv
    exact absurd hv (by simp [validateConfig, validate_regex])
  · have hle2 := hle p rfl
    have hnc2 := hnc p rfl
    by_cases hgn : p.groups = p.groupindex.length
    case neg =>
      have hval : validateConfig (.ok p) group_by = .error .unnamedGroups := by
        simp [validateConfig, validate_regex, hgn]
      refine ⟨⟨fun _ => Or.inr ⟨p, rfl, Or.inl (by omega)⟩, fun _ => ⟨_, hval⟩⟩, ?_⟩
      intro vs hv
      rw [hval] at hv
      exact absurd hv (by simp)
    case pos =>
    by_cases htm : timeKey ∈ p.groupindex
    case pos =>
      have hval : validateConfig (.ok p) group_by = .error .timeReserved := by
        simp [validateConfig, validate_regex, hgn, htm]
      refine ⟨⟨fun _ => Or.inr ⟨p, rfl, Or.inr (Or.inl htm)⟩, fun _ => ⟨_, hval⟩⟩, ?_⟩
      intro vs hv
      rw [hval] at hv
      exact absurd hv (by simp)
    case neg =>
    have hvr : validate_regex (.ok p) = .ok p.groupindex := by
      simp [validate_regex, hgn, htm]
    rcases group_by with _ | s
    · have hval : validateConfig (.ok p) none = .ok p.groupindex := by
        simp [validateConfig, hvr, Group.from_config, Group.validate]
      refine ⟨⟨?_, ?_⟩, ?_⟩
      · rintro ⟨err, herr⟩
        rw [hval] at herr
        exact absurd herr (by simp)
      · intro hfail
        rcases hfail with ⟨u, hu⟩ | ⟨p2, hp2, hcond⟩
        · exact absurd hu (by simp)
        · obtain rfl := Except.ok.inj hp2
          rcases hcond with h1 | h1 | ⟨s, hs, -⟩
          · omega
          · exact absurd h1 htm
          · exact absurd hs (by simp)
      · intro vs hv
        rw [hval] at hv
        exact ⟨p, rfl, (Except.ok.inj hv).symm⟩
    · have hpair : ∀ n t, n ∈ p.groupindex → s = n ++ ':' :: tagName t →
          splitColon s = [n, tagName t] := by
        intro n t hn hs
        exact (splitColon_pair s n (tagName t)).mpr ⟨hs, hnc2 n hn, colon_not_mem_tagName t⟩
      rcases hsp : splitColon s with _ | ⟨b1, _ | ⟨d1, _ | ⟨e1, ps3⟩⟩⟩
      · exact absurd hsp (splitColon_ne_nil s)
      · -- a single piece: the format error of Group.from_config
        have hval : validateConfig (.ok p) (some s) = .error .groupByFormat := by
          simp [validateConfig, hvr, Group.from_config, hsp]
        refine ⟨⟨?_, fun _ => ⟨_, hval⟩⟩, ?_⟩
        · intro _
          refine Or.inr ⟨p, rfl, Or.inr (Or.inr ⟨s, rfl, ?_⟩)⟩
          rintro ⟨n, t, hn, rfl⟩
          have := hpair n t hn rfl
          rw [hsp] at this
          simp at this
        · intro vs hv
          rw [hval] at hv
          exact absurd hv (by simp)
      · -- exactly two pieces
        obtain ⟨hseq, hb1, hd1⟩ := (splitColon_pair s b1 d1).mp hsp
        by_cases hbm : b1 ∈ p.groupindex
        case neg =>
          have hval : validateConfig (.ok p) (some s) = .error .groupByUnknown := by
            simp [validateConfig, hvr, Group.from_config, hsp, Group.validate, hbm]
          refine ⟨⟨?_, fun _ => ⟨_, hval⟩⟩, ?_⟩
          · intro _
            refine Or.inr ⟨p, rfl, Or.inr (Or.inr ⟨s, rfl, ?_⟩)⟩
            rintro ⟨n, t, hn, rfl⟩
            have := hpair n t hn rfl
            rw [hsp] at this
            injection this with h1 h2
            exact hbm (h1 ▸ hn)
          · intro vs hv
            rw [hval] at hv
            exact absurd hv (by simp)
        case pos =>
        rcases htp : typesGet d1 with _ | t0
        · have hval : validateConfig (.ok p) (some s) = .error .groupByType := by
            simp [validateConfig, hvr, Group.from_config, hsp, Group.validate, hbm, htp]
          refine ⟨⟨?_, fun _ => ⟨_, hval⟩⟩, ?_⟩
          · intro _
            refine Or.inr ⟨p, rfl, Or.inr (Or.inr ⟨s, rfl, ?_⟩)⟩
            rintro ⟨n, t, hn, rfl⟩
            have := hpair n t hn rfl
            rw [hsp] at this
            injection this with h1 h2
            injection h2 with h3 h4
            rw [(typesGet_eq_some d1 t).mpr h3] at htp
            exact absurd htp (by simp)
          · intro vs hv
            rw [hval] at hv
            exact absurd hv (by simp)
        · have hval : validateConfig (.ok p) (some s) = .ok p.groupindex := by
            simp [validateConfig, hvr, Group.from_config, hsp, Group.validate, hbm, htp]
          refine ⟨⟨?_, ?_⟩, ?_⟩
          · rintro ⟨err, herr⟩
            rw [hval] at herr
            exact absurd herr (by simp)
          · intro hfail
            rcases hfail with ⟨u, hu⟩ | ⟨p2, hp2, hcond⟩
            · exact absurd hu (by simp)
            · obtain rfl := Except.ok.inj hp2
              rcases hcond with h1 | h1 | ⟨s2, hs2, hnone⟩
              · omega
              · exact absurd h1 htm
              · obtain rfl := Option.some.inj hs2
                exact absurd ⟨b1, t0, hbm,
                  by rw [hseq, (typesGet_eq_some d1 t0).mp htp]⟩ hnone
          · intro vs hv
            rw [hval] at hv
            exact ⟨p, rfl, (Except.ok.inj hv).symm⟩
      · -- three or more pieces: the format error of Group.from_config
        have hval : validateConfig (.ok p) (some s) = .error .groupByFormat := by
          simp [validateConfig, hvr, Group.from_config, hsp]
        refine ⟨⟨?_, fun _ => ⟨_, hval⟩⟩, ?_⟩
        · intro _
          refine Or.inr ⟨p, rfl, Or.inr (Or.inr ⟨s, rfl, ?_⟩)⟩
          rintro ⟨n, t, hn, rfl⟩
          have := hpair n t hn rfl
          rw [hsp] at this
          injection this with h1 h2
          injection h2 with h3 h4
          simp at h4
        · intro vs hv
          rw [hval] at hv
          exact absurd hv (by simp)

def c7Pat : CompiledPattern := ⟨1, [['u']]⟩

def c7Gb : Option Name := some ['u', ':', 'f', 'l', 'o', 'a', 't']

theorem c7_witness :
    ((∃ err, validateConfig (.ok c7Pat) c7Gb = .error err) ↔
      claimFailCond (.ok c7Pat) c7Gb) ∧
    (∀ vs, validateConfig (.ok c7Pat) c7Gb = .ok vs →
      ∃ p, (.ok c7Pat : Except Unit CompiledPattern) = .ok p ∧ vs = p.groupindex) :=
  c7_validation_iff (.ok c7Pat) c7Gb
    (by
      intro p hp
      injection hp with h
      subst h
      decide)
    (by
      intro p hp
      injection hp with h
      subst h
      decide)

/-! ### Claim C4 -/

/-- The length of one group's `"time"` vector inside the buffer. -/
def timeLenAt (b : Buffer) (g : GroupKey) : Nat := timeLen ((bucketAt b g).getD [])

/-- How often `drain_ready` (`Buffer.full`) yields a given group key. -/
def fullCount (b : Buffer) (g : GroupKey) : Nat := countKey (keysOf b.full) g

theorem timeLenAt_clear_self (b : Buffer) (g : GroupKey) :
    timeLenAt (b.clear g) g = 0 := by
  unfold timeLenAt
  rw [bucketAt_clear, if_pos rfl]
  rcases bucketAt b g <;> rfl

/-- A successful `put` adds exactly one `"time"` entry to the record's group
and leaves every other group untouched. -/
theorem put_ok_effect {b : Buffer} {e : Extracted} {b1 : Buffer}
    (h : b.put e = .ok b1) (ht : timeKey ∈ keysOf e) (hnd : (keysOf e).Nodup) :
    timeLenAt b1 (getGroup e b.group_by) = timeLenAt b (getGroup e b.group_by) + 1 ∧
    (∀ g, g ≠ getGroup e b.group_by → bucketAt b1 g = bucketAt b g) ∧
    ((keysOf b.buf).Nodup → (keysOf b1.buf).Nodup) := by
  rcases put_ok_cases h with ⟨bk, hbk, -, -, -, -, rfl⟩ | ⟨hbk, rfl⟩
  · refine ⟨?_, ?_, fun hn => keysOf_set_nodup hn⟩
    · unfold timeLenAt
      show timeLen ((alistGet (alistSet b.buf _ _) _).getD []) = _
      rw [alistGet_set_self, hbk]
      simp only [Option.getD_some]
      exact timeLen_putItems_mem bk e hnd ht
    · intro g hg
      show alistGet (alistSet b.buf _ _) g = _
      exact alistGet_set_ne _ _ _ _ hg
  · refine ⟨?_, ?_, fun hn => keysOf_set_nodup hn⟩
    · unfold timeLenAt
      show timeLen ((alistGet (alistSet b.buf _ _) _).getD []) = _
      rw [alistGet_set_self]
      simp only [Option.getD_some]
      rw [timeLen_putItems_mem [] e hnd ht]
      rcases hbk with hbk | hbk <;> rw [hbk] <;> rfl
    · intro g hg
      show alistGet (alistSet b.buf _ _) g = _
      exact alistGet_set_ne _ _ _ _ hg

/-- A successful sequence of `put` calls, all routed to one group and all
carrying `"time"`, grows that group's `"time"` vector by exactly the number
of calls. -/
theorem putSeq_effect (rs : List Extracted) : ∀ (b b1 : Buffer) (g : GroupKey),
    putSeq b rs = some b1 →
    (∀ e ∈ rs, getGroup e b.group_by = g ∧ timeKey ∈ keysOf e ∧ (keysOf e).Nodup) →
    timeLenAt b1 g = timeLenAt b g + rs.length ∧
    b1.group_by = b.group_by ∧ b1.pack_length = b.pack_length ∧
    ((keysOf b.buf).Nodup → (keysOf b1.buf).Nodup) := by
  induction rs with
  | nil =>
    intro b b1 g hseq hrs
    obtain rfl := Option.some.inj hseq
    exact ⟨rfl, rfl, rfl, fun hn => hn⟩
  | cons e rest ih =>
    intro b b1 g hseq hrs
    rw [putSeq] at hseq
    rcases hput : b.put e with pe | b2
    · rw [hput] at hseq
      exact absurd hseq (by simp)
    · rw [hput] at hseq
      obtain ⟨hgb0, hpk0⟩ := put_ok_pack hput
      obtain ⟨hrc, htc, hnc⟩ := hrs e (List.mem_cons_self _ _)
      obtain ⟨ht1, -, hn1⟩ := put_ok_effect hput htc hnc
      rw [hrc] at ht1
      obtain ⟨ht2, hg2, hp2, hn2⟩ := ih b2 b1 g hseq (by
        intro e2 he2
        obtain ⟨h1, h2, h3⟩ := hrs e2 (List.mem_cons_of_mem _ he2)
        exact ⟨by rw [hpk0, h1], h2, h3⟩)
      refine ⟨by rw [ht2, ht1, List.length_cons]; omega,
        by rw [hg2, hpk0], by rw [hp2, hgb0], fun hn => hn2 (hn1 hn)⟩

theorem count_filter_nodup {κ α : Type} [DecidableEq κ] (l : List (κ × α))
    (pred : κ × α → Bool) (k : κ) (hnd : (keysOf l).Nodup) :
    countKey (keysOf (l.filter pred)) k =
      (match alistGet l k with
       | some v => if pred (k, v) then 1 else 0
       | none => 0) := by
  induction l with
  | nil => rfl
  | cons p r ih =>
    obtain ⟨pk, pv⟩ := p
    rw [keysOf_cons] at hnd
    rw [List.nodup_cons] at hnd
    by_cases hp : pk = k
    · subst hp
      have hnotr : countKey (keysOf (r.filter pred)) pk = 0 :=
        countKey_eq_zero
          (fun hm => hnd.1 (((List.filter_sublist r).map Prod.fst).subset hm))
      rcases hpred : pred (pk, pv) with _ | _
      · rw [List.filter_cons_of_neg (by rw [hpred]; exact Bool.false_ne_true)]
        simp [alistGet, hpred, hnotr]
      · rw [List.filter_cons_of_pos hpred, keysOf_cons]
        simp [alistGet, countKey, hpred, hnotr]
    · rcases hpred : pred (pk, pv) with _ | _
      · rw [List.filter_cons_of_neg (by rw [hpred]; exact Bool.false_ne_true)]
        rw [ih hnd.2]
        simp [alistGet, hp]
      · rw [List.filter_cons_of_pos hpred, keysOf_cons]
        rw [countKey, ih hnd.2]
        simp [alistGet, hp]

theorem fullCount_eq (b : Buffer) (g : GroupKey) (hpl : 1 ≤ b.pack_length)
    (hnd : (keysOf b.buf).Nodup) :
    fullCount b g =
      (match bucketAt b g with
       | some bk => if timeLen bk = b.pack_length then 1 else 0
       | none => 0) := by
  unfold fullCount Buffer.full bucketAt
  rw [count_filter_nodup _ _ _ hnd]
  rcases hb : alistGet b.buf g with _ | bk
  · simp only [hb]
  · simp only [hb]
    rcases ht : alistGet bk timeKey with _ | ts
    · have h0 : timeLen bk = 0 := by
        unfold timeLen
        rw [ht]
        rfl
      simp only [ht, h0]
      rw [if_neg (by simp), if_neg (by omega)]
    · have hTL : timeLen bk = ts.length := by
        unfold timeLen
        rw [ht]
        rfl
      rw [hTL]
      by_cases hlen : ts.length = b.pack_length
      · have hne : ts ≠ [] := by
          intro hnil
          rw [hnil] at hlen
          simp at hlen
          omega
        simp only [ht]
        rw [if_pos (by simp [hne, hlen]), if_pos hlen]
      · simp only [ht]
        rw [if_neg (by simp [hlen]), if_neg hlen]

theorem fullCount_of_timeLenAt (b : Buffer) (g : GroupKey) (hpl : 1 ≤ b.pack_length)
    (hnd : (keysOf b.buf).Nodup) :
    (timeLenAt b g = b.pack_length → fullCount b g = 1) ∧
    (timeLenAt b g ≠ b.pack_length → fullCount b g = 0) := by
  have heq := fullCount_eq b g hpl hnd
  unfold timeLenAt
  rcases hb : bucketAt b g with _ | bk
  · rw [hb] at heq
    simp only [Option.getD_none, timeLen_nil]
    constructor
    · intro h
      exact absurd h.symm (by omega)
    · intro _
      exact heq
  · rw [hb] at heq
    simp only [Option.getD_some]
    constructor
    · intro h
      rw [heq]
      show (if timeLen bk = b.pack_length then 1 else 0) = 1
      rw [if_pos h]
    · intro h
      rw [heq]
      show (if timeLen bk = b.pack_length then 1 else 0) = 0
      rw [if_neg h]

theorem clear_pack_length (b : Buffer) (g : GroupKey) :
    (b.clear g).pack_length = b.pack_length := rfl

theorem clear_group_by (b : Buffer) (g : GroupKey) :
    (b.clear g).group_by = b.group_by := rfl

/-- Claim C4: starting from an empty or never-seen bucket for a group key,
after exactly `pack_length` successful `put` calls routed to that key,
`drain_ready` (`Buffer.full`) yields the key exactly once, and what it yields
are snapshots of the stored buckets — it clears and mutates nothing; with
fewer than `pack_length` puts the key is not yielded; and after `clear` the
key is not yielded again until another `pack_length` successful puts have
occurred. -/
theorem c4_drain_ready_cycle (b0 : Buffer) (g : GroupKey) (rs : List Extracted)
    (b1 : Buffer)
    (hpl : 1 ≤ b0.pack_length)
    (hnd : (keysOf b0.buf).Nodup)
    (hinit : bucketAt b0 g = none ∨ bucketAt b0 g = some [])
    (hrs : ∀ e ∈ rs, getGroup e b0.group_by = g ∧ timeKey ∈ keysOf e ∧ (keysOf e).Nodup)
    (hseq : putSeq b0 rs = some b1) :
    (rs.length = b0.pack_length →
       fullCount b1 g = 1 ∧ ∀ pr ∈ b1.full, bucketAt b1 pr.1 = some pr.2) ∧
    (rs.length < b0.pack_length → fullCount b1 g = 0) ∧
    (rs.length = b0.pack_length →
       fullCount (b1.clear g) g = 0 ∧
       ∀ rs2 b3,
         (∀ e ∈ rs2, getGroup e b0.group_by = g ∧ timeKey ∈ keysOf e ∧ (keysOf e).Nodup) →
         putSeq (b1.clear g) rs2 = some b3 →
         (rs2.length < b0.pack_length → fullCount b3 g = 0) ∧
         (rs2.length = b0.pack_length → fullCount b3 g = 1)) := by
  have h0 : timeLenAt b0 g = 0 := by
    unfold timeLenAt
    rcases hinit with h | h <;> rw [h] <;> rfl
  obtain ⟨hT, hG, hP, hN⟩ := putSeq_effect rs b0 b1 g hseq hrs
  rw [h0] at hT
  have hnd1 : (keysOf b1.buf).Nodup := hN hnd
  have hpl1 : 1 ≤ b1.pack_length := by rw [hP]; exact hpl
  obtain ⟨hfc1, hfc0⟩ := fullCount_of_timeLenAt b1 g hpl1 hnd1
  refine ⟨?_, ?_, ?_⟩
  · intro hlen
    refine ⟨hfc1 (by rw [hT, hP]; omega), ?_⟩
    intro pr hpr
    obtain ⟨k, v⟩ := pr
    have hm : (k, v) ∈ b1.buf := by
      simp only [Buffer.full] at hpr
      exact List.mem_of_mem_filter hpr
    exact alistGet_of_mem_nodup hnd1 hm
  · intro hlen
    exact hfc0 (by rw [hT, hP]; omega)
  · intro hlen
    have hndc : (keysOf (b1.clear g).buf).Nodup := by rw [keysOf_clear]; exact hnd1
    have hplc : 1 ≤ (b1.clear g).pack_length := by rw [clear_pack_length]; exact hpl1
    obtain ⟨hc1, hc0⟩ := fullCount_of_timeLenAt (b1.clear g) g hplc hndc
    refine ⟨hc0 (by rw [timeLenAt_clear_self, clear_pack_length, hP]; omega), ?_⟩
    intro rs2 b3 hrs2 hseq2
    obtain ⟨hT2, hG2, hP2, hN2⟩ := putSeq_effect rs2 (b1.clear g) b3 g hseq2 (by
      intro e he
      obtain ⟨h1, h2, h3⟩ := hrs2 e he
      refine ⟨?_, h2, h3⟩
      rw [clear_group_by, hG]
      exact h1)
    rw [timeLenAt_clear_self] at hT2
    rw [clear_pack_length] at hP2
    have hnd3 : (keysOf b3.buf).Nodup := hN2 hndc
    have hpl3 : 1 ≤ b3.pack_length := by rw [hP2]; exact hpl1
    obtain ⟨h31, h30⟩ := fullCount_of_timeLenAt b3 g hpl3 hnd3
    constructor
    · intro hl2
      exact h30 (by rw [hT2, hP2, hP]; omega)
    · intro hl2
      exact h31 (by rw [hT2, hP2, hP]; omega)

def c4Buf0 : Buffer := Buffer.init 1 none

def c4Recs : List Extracted := [[(timeKey, Value.vFloat 0)]]

def c4Buf1 : Buffer := ⟨1, none, [(none, [(timeKey, [Value.vFloat 0])])]⟩

theorem c4_witness :
    putSeq c4Buf0 c4Recs = some c4Buf1 ∧
    ((c4Recs.length = c4Buf0.pack_length →
       fullCount c4Buf1 none = 1 ∧
       ∀ pr ∈ c4Buf1.full, bucketAt c4Buf1 pr.1 = some pr.2) ∧
     (c4Recs.length < c4Buf0.pack_length → fullCount c4Buf1 none = 0) ∧
     (c4Recs.length = c4Buf0.pack_length →
       fullCount (c4Buf1.clear none) none = 0 ∧
       ∀ rs2 b3,
         (∀ e ∈ rs2, getGroup e c4Buf0.group_by = none ∧ timeKey ∈ keysOf e ∧
           (keysOf e).Nodup) →
         putSeq (c4Buf1.clear none) rs2 = some b3 →
         (rs2.length < c4Buf0.pack_length → fullCount b3 none = 0) ∧
         (rs2.length = c4Buf0.pack_length → fullCount b3 none = 1))) :=
  ⟨rfl, c4_drain_ready_cycle c4Buf0 none c4Recs c4Buf1 (by decide) (by decide)
    (Or.inl rfl) (by decide) rfl⟩

/-! ### Claim C9 -/

/-- The processor-stage buffer invariant: distinct group keys, and every
bucket strictly below the packing limit. -/
def BufInv (b : Buffer) : Prop :=
  (keysOf b.buf).Nodup ∧ ∀ p ∈ b.buf, timeLen p.2 < b.pack_length

theorem mem_full_iff (b : Buffer) (hpl : 1 ≤ b.pack_length) (pr : GroupKey × Bucket) :
    pr ∈ b.full ↔ pr ∈ b.buf ∧ timeLen pr.2 = b.pack_length := by
  unfold Buffer.full
  rw [List.mem_filter]
  apply and_congr_right
  intro _
  show (match alistGet pr.2 timeKey with
      | some ts => !ts.isEmpty && decide (ts.length = b.pack_length)
      | none => false) = true ↔ timeLen pr.2 = b.pack_length
  unfold timeLen
  rcases ht : alistGet pr.2 timeKey with _ | ts
  · simp only [Option.getD_none, List.length_nil]
    constructor
    · intro h
      simp at h
    · intro h
      omega
  · simp only [Option.getD_some]
    constructor
    · intro h
      simp at h
      exact h.2
    · intro h
      rcases ts with _ | ⟨a, ts2⟩
      · rw [List.length_nil] at h
        omega
      · simp [h]

theorem filter_all_eq_singleton {α : Type} (l : List α) (pred : α → Bool) (a : α)
    (hnd : l.Nodup) (hall : ∀ x ∈ l, pred x = true → x = a) :
    l.filter pred = [] ∨ l.filter pred = [a] := by
  induction l with
  | nil => exact Or.inl rfl
  | cons x r ih =>
    rw [List.nodup_cons] at hnd
    rcases hx : pred x with _ | _
    · rw [List.filter_cons_of_neg (by rw [hx]; exact Bool.false_ne_true)]
      exact ih hnd.2 fun y hy hpy => hall y (List.mem_cons_of_mem _ hy) hpy
    · obtain rfl := hall x (List.mem_cons_self _ _) hx
      rw [List.filter_cons_of_pos hx]
      right
      have hfr : r.filter pred = [] := by
        by_contra hne
        obtain ⟨y, hy⟩ := List.exists_mem_of_ne_nil _ hne
        have hym := List.mem_filter.mp hy
        obtain rfl := hall y (List.mem_cons_of_mem _ hym.1) hym.2
        exact hnd.1 hym.1
      rw [hfr]

/-- One `Parser.write` call keeps the buffer invariant: the only bucket that
can reach `pack_length` is the one the record was routed to, and the flush
loop clears it whether the save succeeds or fails. -/
theorem write_preserves_inv (b : Buffer) (e : Extracted) (oracle : FlushOracle)
    (hpl : 1 ≤ b.pack_length) (hinv : BufInv b) (hnd : (keysOf e).Nodup) :
    BufInv (Parser.write b e oracle).buffer ∧
    (Parser.write b e oracle).buffer.pack_length = b.pack_length := by
  obtain ⟨hndk, hbound⟩ := hinv
  rcases hput : b.put e with pe | b1
  · have hw : Parser.write b e oracle =
        ⟨.error (.putFailed pe), b, [(.error, .cannotBuffer pe)]⟩ := by
      simp [Parser.write, hput]
    rw [hw]
    exact ⟨⟨hndk, hbound⟩, rfl⟩
  · have hw : Parser.write b e oracle = flushLoop b.pack_length oracle b1 b1.full := by
      simp [Parser.write, hput]
    have hb1 : ∃ nb, b1.buf = alistSet b.buf (getGroup e b.group_by) nb ∧
        timeLen nb ≤ b.pack_length ∧ b1.pack_length = b.pack_length := by
      rcases put_ok_cases hput with ⟨bk, hbk, -, -, -, hlt, rfl⟩ | ⟨hbk, rfl⟩
      · refine ⟨putItems bk e, rfl, ?_, rfl⟩
        by_cases htme : timeKey ∈ keysOf e
        · rw [timeLen_putItems_mem bk e hnd htme]
          omega
        · rw [timeLen_putItems_not bk e htme]
          omega
      · refine ⟨putItems [] e, rfl, ?_, rfl⟩
        by_cases htme : timeKey ∈ keysOf e
        · rw [timeLen_putItems_mem [] e hnd htme, timeLen_nil]
          omega
        · rw [timeLen_putItems_not [] e htme, timeLen_nil]
          omega
    obtain ⟨nb, hbuf1, hnble, hpk1⟩ := hb1
    have hnd1 : (keysOf b1.buf).Nodup := by
      rw [hbuf1]
      exact keysOf_set_nodup hndk
    have hmem1 : ∀ q ∈ b1.buf,
        q = (getGroup e b.group_by, nb) ∨ (q ∈ b.buf ∧ q.1 ≠ getGroup e b.group_by) := by
      intro q hq
      rw [hbuf1] at hq
      exact mem_alistSet_nodup hndk hq
    have hbound1 : ∀ q ∈ b1.buf, timeLen q.2 ≤ b.pack_length := by
      intro q hq
      rcases hmem1 q hq with rfl | ⟨hqb, -⟩
      · exact hnble
      · exact Nat.le_of_lt (hbound q hqb)
    have hpl1 : 1 ≤ b1.pack_length := by
      rw [hpk1]
      exact hpl
    have hall : ∀ q ∈ b1.buf, timeLen q.2 = b1.pack_length →
        q = (getGroup e b.group_by, nb) := by
      intro q hq hfullq
      rcases hmem1 q hq with rfl | ⟨hqb, -⟩
      · rfl
      · rw [hpk1] at hfullq
        exact absurd hfullq (Nat.ne_of_lt (hbound q hqb))
    have hfl : b1.full = [] ∨ b1.full = [(getGroup e b.group_by, nb)] := by
      unfold Buffer.full
      apply filter_all_eq_singleton _ _ _ (List.Nodup.of_map _ hnd1)
      intro x hx hpx
      refine hall x hx ?_
      have hxf : x ∈ b1.full := by
        unfold Buffer.full
        exact List.mem_filter.mpr ⟨hx, hpx⟩
      exact ((mem_full_iff b1 hpl1 x).mp hxf).2
    rw [hw]
    rcases hfl with hfl | hfl
    · rw [hfl]
      refine ⟨⟨hnd1, ?_⟩, hpk1⟩
      intro q hq
      have hle : timeLen q.2 ≤ b1.pack_length := by
        rw [hpk1]
        exact hbound1 q hq
      rcases Nat.lt_or_ge (timeLen q.2) b1.pack_length with hlt | hge
      · exact hlt
      · have heq : timeLen q.2 = b1.pack_length := by omega
        have : q ∈ b1.full := (mem_full_iff b1 hpl1 q).mpr ⟨hq, heq⟩
        rw [hfl] at this
        simp at this
    · rw [hfl]
      have hbuffer :
          (flushLoop b.pack_length oracle b1 [(getGroup e b.group_by, nb)]).buffer =
            b1.clear (getGroup e b.group_by) := by
        rw [flushLoop]
        split
        · rfl
        · rfl
      rw [hbuffer]
      refine ⟨⟨by rw [keysOf_clear]; exact hnd1, ?_⟩,
        by rw [clear_pack_length]; exact hpk1⟩
      intro q hq
      rw [clear_pack_length]
      have hq2 : q ∈ b1.buf.map fun p =>
          if p.1 = getGroup e b.group_by then (p.1, ([] : Bucket)) else p := hq
      obtain ⟨p0, hp0, hq0⟩ := List.mem_map.mp hq2
      by_cases hpg : p0.1 = getGroup e b.group_by
      · rw [← hq0, if_pos hpg]
        show timeLen [] < b1.pack_length
        rw [timeLen_nil]
        omega
      · rw [← hq0, if_neg hpg]
        have hle := hbound1 p0 hp0
        rcases Nat.lt_or_ge (timeLen p0.2) b1.pack_length with hlt | hge
        · exact hlt
        · have heq : timeLen p0.2 = b1.pack_length := by
            rw [hpk1]
            omega
          have := hall p0 hp0 heq
          rw [this] at hpg
          exact absurd rfl hpg

theorem writeTrace_inv (calls : List (Extracted × FlushOracle)) :
    ∀ b : Buffer, 1 ≤ b.pack_length → BufInv b →
    (∀ c ∈ calls, (keysOf c.1).Nodup) →
    BufInv (writeTrace b calls) ∧ (writeTrace b calls).pack_length = b.pack_length := by
  induction calls with
  | nil =>
    intro b _ h2 _
    exact ⟨h2, rfl⟩
  | cons c rest ih =>
    intro b h1 h2 h3
    rw [writeTrace]
    obtain ⟨hi, hp⟩ := write_preserves_inv b c.1 c.2 h1 h2 (h3 c (List.mem_cons_self _ _))
    obtain ⟨hi2, hp2⟩ := ih _ (by rw [hp]; exact h1) hi
      fun d hd => h3 d (List.mem_cons_of_mem _ hd)
    exact ⟨hi2, by rw [hp2, hp]⟩

/-- Claim C9: starting from the empty buffer, after any sequence of
`Parser.write` calls (each may return normally or raise), every bucket's
`"time"` vector is strictly below `pack_length`, so the "Cannot add to a
buffer that is already full" assertion of `Buffer.put` can never fire on the
next record when `put` is only reached through `Parser.write`. -/
theorem c9_buffer_never_full (pl : Nat) (gb : Option Name)
    (calls : List (Extracted × FlushOracle))
    (hpl : 1 ≤ pl)
    (hcalls : ∀ c ∈ calls, (keysOf c.1).Nodup) :
    (∀ p ∈ (writeTrace (Buffer.init pl gb) calls).buf,
        timeLen p.2 < (writeTrace (Buffer.init pl gb) calls).pack_length) ∧
    ∀ e2, (writeTrace (Buffer.init pl gb) calls).put e2 ≠ .error .bufferFull := by
  have hinv0 : BufInv (Buffer.init pl gb) := by
    constructor
    · exact List.nodup_nil
    · intro p hp
      simp [Buffer.init] at hp
  obtain ⟨⟨hn, hb⟩, hp⟩ := writeTrace_inv calls (Buffer.init pl gb) hpl hinv0 hcalls
  exact ⟨hb, fun e2 => put_not_bufferFull hb⟩

def c9Calls : List (Extracted × FlushOracle) :=
  [([(timeKey, Value.vFloat 0)], fun _ _ => true),
   ([(timeKey, Value.vFloat 0)], fun _ _ => false)]

theorem c9_witness :
    (∀ p ∈ (writeTrace (Buffer.init 1 none) c9Calls).buf,
        timeLen p.2 < (writeTrace (Buffer.init 1 none) c9Calls).pack_length) ∧
    ∀ e2, (writeTrace (Buffer.init 1 none) c9Calls).put e2 ≠ .error .bufferFull :=
  c9_buffer_never_full 1 none c9Calls (by decide) (by
    intro c hc
    rcases List.mem_cons.mp hc with rfl | hc2
    · decide
    · rcases List.mem_cons.mp hc2 with rfl | hc3
      · decide
      · simp at hc3)

end Readport
